import Mathlib

/-!
Shallow embedding of the bytecode VM in `vm/vm.go` (package `vm`).

Modelling conventions:
* Go strings are Lean `String`s; where the source splits a string on `':'`
  (`strings.Split(name, ":")`), we work on the underlying character list via
  `goSplit`, which mirrors `strings.Split` for a one-character separator.
* Go maps with `int`/slice zero values (`map[string]int`,
  `map[string][]*InstructionSet`) are total functions defaulting to `0` / `[]`,
  matching Go's missing-key semantics.  `setLabel` only ever appends non-empty
  entries, so an empty list is exactly "key absent" for table lookups.
* The Go `VM` struct owns `SP`/`CFP` while `Stack` holds a back-pointer to the
  VM; here the stack data and `SP` live directly on the `VM` record and the
  stack methods transform the `VM`.
* Go runtime panics (slice index out of range, explicit `panic`) are modelled
  with `Except VMFault`; a panic halts the VM, so an `.error` result carries no
  successor state.
* `SP` and `CFP` are Go `int`s and are modelled as `Int` (pop decrements `SP`
  before indexing, so negative indices must be representable).
* The per-opcode operations (`i.Action.Operation`), the instruction parameter
  type, and the `labelTypes` map live in source files outside the excerpt;
  operations are an abstract parameter `act`, instructions an abstract type
  `ι`, and `labelTypes` is modelled from the spec (see its doc comment).
-/

namespace Rooby

/-- Go `strings.Split(s, sep)` for a single-character separator, on the
underlying character list: splits at every occurrence of `sep`. -/
def goSplit (sep : Char) : List Char → List (List Char)
  | [] => [[]]
  | c :: rest =>
    if c = sep then [] :: goSplit sep rest
    else
      match goSplit sep rest with
      | [] => [[c]]
      | r :: rs => (c :: r) :: rs

theorem goSplit_ne_nil (sep : Char) (l : List Char) : goSplit sep l ≠ [] := by
  cases l with
  | nil => simp [goSplit]
  | cons c rest =>
    simp only [goSplit]
    split
    · simp
    · split <;> simp_all

theorem goSplit_of_not_mem (sep : Char) (l : List Char) (h : sep ∉ l) :
    goSplit sep l = [l] := by
  induction l with
  | nil => rfl
  | cons c rest ih =>
    simp only [List.mem_cons, not_or] at h
    rw [goSplit, if_neg (fun hc => h.1 hc.symm), ih h.2]

theorem goSplit_append (sep : Char) (a b : List Char) (h : sep ∉ a) :
    goSplit sep (a ++ sep :: b) = a :: goSplit sep b := by
  induction a with
  | nil => simp [goSplit]
  | cons c rest ih =>
    simp only [List.mem_cons, not_or] at h
    have hcs : ¬(c = sep) := fun hc => h.1 hc.symm
    simp only [List.cons_append, goSplit, List.append_eq]
    rw [ih h.2, if_neg hcs]

/-- The Go `LabelType` constants used by `vm.go`
(`LABEL_DEF`, `LABEL_DEFCLASS`, `BLOCK`, `PROGRAM`). -/
inductive LabelType where
  | LABEL_DEF
  | LABEL_DEFCLASS
  | BLOCK
  | PROGRAM
deriving DecidableEq

/-- The Go `Label` struct (`Name`, `Type`); the field `Type` is spelled
`Ltype` because `Type` is a Lean keyword. -/
structure Label where
  Name : String
  Ltype : LabelType
deriving DecidableEq

/-- The Go `InstructionSet` struct, parametrized by the instruction type `ι`
(the `Instruction` type lives outside the excerpt).  Only the fields the
excerpt touches are modelled: the label and the instruction list. -/
structure InstructionSet (ι : Type) where
  Label : Option Label
  Instructions : List ι
deriving DecidableEq

/-- The Go `CallFrame` struct; the excerpt touches only its instruction set
and program counter (locals, self, block live in code outside the excerpt). -/
structure CallFrame (ι : Type) where
  InstructionSet : InstructionSet ι
  PC : Nat
deriving DecidableEq

/-- The Go `ISIndexTable` struct: a `map[string]int` whose missing keys read
as `0` (Go zero value), modelled as a total function. -/
structure ISIndexTable where
  Data : List Char → Nat

/-- Modelled from the spec: the Go `Class` runtime type is defined outside the
excerpt.  The spec's Class carries a name (plus superclass and method tables,
which no claim here touches), and built-in classes are "bound into the
constants map under their names". -/
structure RClass where
  Name : String
deriving DecidableEq

/-- Modelled from the spec: `ReturnName` yields the class's name, which is the
key the class is bound under in the constants map. -/
def RClass.ReturnName (c : RClass) : String := c.Name

/-- The Go `Object` interface: a runtime value.  Claims here only inspect
class values; all other runtime values are collapsed into `val`. -/
inductive Object where
  | cls (c : RClass)
  | val (k : Nat)
deriving DecidableEq

/-- The Go `Pointer` struct: an indirection cell holding one `Object`. -/
structure Pointer where
  Target : Object
deriving DecidableEq

/-- A fatal Go runtime fault: an explicit `panic(msg)` or a slice
index-out-of-range panic.  Either halts the VM. -/
inductive VMFault where
  | panicked (msg : String)
  | indexOutOfRange
deriving DecidableEq

/-- The Go `VM` struct of `vm.go`.  `StackData` is `vm.Stack.Data` and
`CallFrames` is `vm.CallFrameStack.CallFrames` (the Go wrapper structs hold
only these slices plus a back-pointer to the VM). -/
structure VM (ι : Type) where
  CallFrames : List (CallFrame ι)
  StackData : List (Option Pointer)
  SP : Int
  CFP : Int
  Constants : String → Option Pointer
  LabelTable : LabelType → List Char → List (InstructionSet ι)
  MethodISTable : ISIndexTable
  ClassISTable : ISIndexTable
  BlockList : ISIndexTable

/-- Modelled from the spec: the built-in `IntegerClass` value (its Go
definition is outside the excerpt); the spec names it `Integer`. -/
def IntegerClass : RClass := { Name := "Integer" }

/-- Modelled from the spec: the built-in `StringClass` value. -/
def StringClass : RClass := { Name := "String" }

/-- Modelled from the spec: the built-in `BooleanClass` value. -/
def BooleanClass : RClass := { Name := "Boolean" }

/-- Modelled from the spec: the built-in `NullClass` value. -/
def NullClass : RClass := { Name := "Null" }

/-- Modelled from the spec: the built-in `ArrayClass` value. -/
def ArrayClass : RClass := { Name := "Array" }

/-- Modelled from the spec: the built-in `HashClass` value. -/
def HashClass : RClass := { Name := "Hash" }

/-- Modelled from the spec: the built-in `ClassClass` value. -/
def ClassClass : RClass := { Name := "Class" }

/-- Modelled from the spec: the built-in `ObjectClass` value. -/
def ObjectClass : RClass := { Name := "Object" }

/-- The `builtInClasses` slice of `initConstants`, in source order. -/
def builtInClasses : List RClass :=
  [IntegerClass, StringClass, BooleanClass, NullClass,
   ArrayClass, HashClass, ClassClass, ObjectClass]

/-- Model of `vm.initConstants()`: builds the constants map, binding each built-in
class under its `ReturnName` to a fresh `Pointer` targeting it.  The fold
inserts in slice order with later insertions shadowing earlier ones, exactly
like repeated Go map assignment. -/
def initConstants : String → Option Pointer :=
  builtInClasses.foldl
    (fun m c k => if k = c.ReturnName then some { Target := Object.cls c } else m k)
    (fun _ => none)

/-- Model of `vm.New()`: fresh VM with empty stacks, `SP = CFP = 0`, the built-in
constants, empty label tables for all four kinds, and zeroed index tables. -/
def New {ι : Type} : VM ι where
  CallFrames := []
  StackData := []
  SP := 0
  CFP := 0
  Constants := initConstants
  LabelTable := fun _ _ => []
  MethodISTable := { Data := fun _ => 0 }
  ClassISTable := { Data := fun _ => 0 }
  BlockList := { Data := fun _ => 0 }

/-- Model of `Stack.push`: if the data slice is full (`len(s.Data) <= SP`) append,
otherwise overwrite slot `SP`; then `SP += 1`.  Overwriting a negative `SP`
slot is a Go index panic. -/
def push {ι : Type} (vm : VM ι) (v : Option Pointer) : Except VMFault (VM ι) :=
  if (vm.StackData.length : Int) ≤ vm.SP then
    .ok { vm with StackData := vm.StackData ++ [v], SP := vm.SP + 1 }
  else if 0 ≤ vm.SP then
    .ok { vm with StackData := vm.StackData.set vm.SP.toNat v, SP := vm.SP + 1 }
  else
    .error .indexOutOfRange

/-- Model of `Stack.pop`: explicit panic when the data slice is empty; otherwise
`SP -= 1`, read slot `SP`, clear it to `nil`, return the read value.  Reading
slot `SP-1` outside `[0, len)` is a Go index panic (the source decrements `SP`
first, but the panic halts the VM, so no state survives it). -/
def pop {ι : Type} (vm : VM ι) : Except VMFault (Option Pointer × VM ι) :=
  if vm.StackData.length < 1 then
    .error (.panicked "Nothing to pop!")
  else
    let sp := vm.SP - 1
    if h : 0 ≤ sp ∧ sp.toNat < vm.StackData.length then
      .ok (vm.StackData.get ⟨sp.toNat, h.2⟩,
           { vm with StackData := vm.StackData.set sp.toNat none, SP := sp })
    else
      .error .indexOutOfRange

/-- Model of `Stack.Top`: slot `SP-1` when `SP > 0`, otherwise slot `0` — with a Go
index panic when the accessed slot does not exist. -/
def Top {ι : Type} (vm : VM ι) : Except VMFault (Option Pointer) :=
  if 0 < vm.SP then
    match vm.StackData[(vm.SP - 1).toNat]? with
    | some v => .ok v
    | none => .error .indexOutOfRange
  else
    match vm.StackData[0]? with
    | some v => .ok v
    | none => .error .indexOutOfRange

/-- Model of `vm.execInstruction(cf, i)`: increment `cf.PC` by 1, then invoke the
opcode's operation on the VM and the frame.  The operations
(`i.Action.Operation`) live outside the excerpt and are the abstract
parameter `act`. -/
def execInstruction {ι : Type} (act : ι → VM ι → CallFrame ι → VM ι × CallFrame ι)
    (vm : VM ι) (cf : CallFrame ι) (i : ι) : VM ι × CallFrame ι :=
  act i vm { cf with PC := cf.PC + 1 }

/-- Model of `vm.EvalCallFrame(cf)`: loop executing the instruction at `cf.PC` while
`cf.PC < len(cf.InstructionSet.Instructions)`.  The Go loop need not
terminate (an operation may rewind the PC), so the model takes fuel and
returns `none` when the fuel runs out; it additionally returns, as ghost
instrumentation, the list of PC values at which instructions were executed
(the source returns nothing). -/
def EvalCallFrame {ι : Type} (act : ι → VM ι → CallFrame ι → VM ι × CallFrame ι) :
    Nat → VM ι → CallFrame ι → Option (VM ι × CallFrame ι × List Nat)
  | fuel, vm, cf =>
    if h : cf.PC < cf.InstructionSet.Instructions.length then
      match fuel with
      | 0 => none
      | fuel' + 1 =>
        let p := execInstruction act vm cf (cf.InstructionSet.Instructions.get ⟨cf.PC, h⟩)
        (EvalCallFrame act fuel' p.1 p.2).map (fun r => (r.1, r.2.1, cf.PC :: r.2.2))
    else
      some (vm, cf, [])

/-- Modelled from the spec: `CallFrameStack.Top` is defined outside the
excerpt; per the spec, CFP indexes "the current top frame" of the call-frame
stack, so `Top` reads the frame at index CFP — a fatal fault (`none`) when no
frame is there. -/
def CallFrameStackTop {ι : Type} (vm : VM ι) : Option (CallFrame ι) :=
  if 0 ≤ vm.CFP then vm.CallFrames[vm.CFP.toNat]? else none

/-- Model of `vm.Exec()`: fetch the top call frame and evaluate it.  `none` when
fetching the top frame faults (empty call-frame stack) or the evaluator runs
out of fuel. -/
def Exec {ι : Type} (act : ι → VM ι → CallFrame ι → VM ι × CallFrame ι)
    (fuel : Nat) (vm : VM ι) : Option (VM ι × CallFrame ι × List Nat) :=
  match CallFrameStackTop vm with
  | none => none
  | some cf => EvalCallFrame act fuel vm cf

/-- Modelled from the spec: the `labelTypes` map is defined outside the
excerpt; per the spec's label naming, prefix `Def` marks method bodies,
`DefClass` class bodies and `Block` blocks.  Other prefixes are unspecified
("should be forbidden at compile time") and map to `none`. -/
def labelTypes (s : List Char) : Option LabelType :=
  if s = "Def".data then some .LABEL_DEF
  else if s = "DefClass".data then some .LABEL_DEFCLASS
  else if s = "Block".data then some .BLOCK
  else none

/-- The instruction set as stored by `setLabel`: the same set with its
`Label` field set to `&Label{Name: name, Type: labelType}`. -/
def labelledIS {ι : Type} (name : String) (k : LabelType) (is : InstructionSet ι) :
    InstructionSet ι :=
  { is with Label := some { Name := name, Ltype := k } }

/-- Model of `vm.LabelTable[labelType][labelName] = append(..., is)`: the VM with `is`
appended to the label-table entry at `(k, key)`. -/
def tableAppendVM {ι : Type} (vm : VM ι) (k : LabelType) (key : List Char)
    (is : InstructionSet ι) : VM ι :=
  { vm with
    LabelTable := fun k' key' =>
      if k' = k ∧ key' = key then vm.LabelTable k' key' ++ [is]
      else vm.LabelTable k' key' }

/-- Model of `vm.setLabel(is, name)`: the name `ProgramStart` goes under kind `PROGRAM` with the
full name as key; otherwise the name is split on `':'`, the part after the
colon is the key (a Go index panic, modelled `none`, when there is no such
part) and the part before it selects the kind via `labelTypes`.  The label is
written into `is.Label` and the labelled set appended to the table. -/
def setLabel {ι : Type} (vm : VM ι) (is : InstructionSet ι) (name : String) :
    Option (VM ι × InstructionSet ι) :=
  if name = "ProgramStart" then
    let is' := labelledIS name .PROGRAM is
    some (tableAppendVM vm .PROGRAM name.data is', is')
  else
    let parts := goSplit ':' name.data
    match parts[1]? with
    | none => none
    | some labelName =>
      match labelTypes (parts.headD []) with
      | none => none
      | some labelType =>
        let is' := labelledIS name labelType is
        some (tableAppendVM vm labelType labelName is', is')

/-- Model of `vm.getBlock(name)`: look up the `BLOCK` table entry; `(nil, false)`
(modelled `none`) when absent, otherwise always `iss[0]` — the first
registered set; no index table is consulted or advanced. -/
def getBlock {ι : Type} (vm : VM ι) (name : String) : Option (InstructionSet ι) :=
  match vm.LabelTable .BLOCK name.data with
  | [] => none
  | is :: _ => some is

/-- Model of `vm.getMethodIS(name)`: look up the `LABEL_DEF` entry; `(nil, false)`
(inner `none`) when absent, otherwise read the set at this name's
`MethodISTable` cursor (Go index panic when the cursor is past the end) and
advance the cursor by one. -/
def getMethodIS {ι : Type} (vm : VM ι) (name : String) :
    Except VMFault (Option (InstructionSet ι) × VM ι) :=
  match vm.LabelTable .LABEL_DEF name.data with
  | [] => .ok (none, vm)
  | a :: as =>
    match (a :: as)[vm.MethodISTable.Data name.data]? with
    | none => .error .indexOutOfRange
    | some is =>
      .ok (some is,
        { vm with
          MethodISTable :=
            { Data := fun k =>
                if k = name.data then vm.MethodISTable.Data k + 1
                else vm.MethodISTable.Data k } })

/-- Model of `vm.getClassIS(name)`: as `getMethodIS`, over the `LABEL_DEFCLASS` table
and the `ClassISTable` cursor. -/
def getClassIS {ι : Type} (vm : VM ι) (name : String) :
    Except VMFault (Option (InstructionSet ι) × VM ι) :=
  match vm.LabelTable .LABEL_DEFCLASS name.data with
  | [] => .ok (none, vm)
  | a :: as =>
    match (a :: as)[vm.ClassISTable.Data name.data]? with
    | none => .error .indexOutOfRange
    | some is =>
      .ok (some is,
        { vm with
          ClassISTable :=
            { Data := fun k =>
                if k = name.data then vm.ClassISTable.Data k + 1
                else vm.ClassISTable.Data k } })

/-- Register a list of instruction sets under one name by successive
`setLabel` calls (in list order). -/
def regMany {ι : Type} (vm : VM ι) (name : String) :
    List (InstructionSet ι) → Option (VM ι)
  | [] => some vm
  | is :: rest =>
    match setLabel vm is name with
    | none => none
    | some (vm', _) => regMany vm' name rest

/-- Perform `j` successive `getMethodIS(name)` calls, collecting the results
in call order. -/
def getMethodCalls {ι : Type} (vm : VM ι) (name : String) :
    Nat → Except VMFault (List (Option (InstructionSet ι)) × VM ι)
  | 0 => .ok ([], vm)
  | j + 1 =>
    match getMethodIS vm name with
    | .error f => .error f
    | .ok (r, vm') =>
      match getMethodCalls vm' name j with
      | .error f => .error f
      | .ok (rs, vmF) => .ok (r :: rs, vmF)

/-- Perform `j` successive `getClassIS(name)` calls, collecting the results
in call order. -/
def getClassCalls {ι : Type} (vm : VM ι) (name : String) :
    Nat → Except VMFault (List (Option (InstructionSet ι)) × VM ι)
  | 0 => .ok ([], vm)
  | j + 1 =>
    match getClassIS vm name with
    | .error f => .error f
    | .ok (r, vm') =>
      match getClassCalls vm' name j with
      | .error f => .error f
      | .ok (rs, vmF) => .ok (r :: rs, vmF)

/-- One operand-stack operation, for stating invariants over operation
sequences. -/
inductive StackOp where
  | pushOp (v : Option Pointer)
  | popOp
deriving DecidableEq

/-- Run a sequence of stack operations, stopping at the first fault. -/
def runOps {ι : Type} (vm : VM ι) : List StackOp → Except VMFault (VM ι)
  | [] => .ok vm
  | .pushOp v :: rest =>
    match push vm v with
    | .error f => .error f
    | .ok vm' => runOps vm' rest
  | .popOp :: rest =>
    match pop vm with
    | .error f => .error f
    | .ok (_, vm') => runOps vm' rest

/-- The operand-stack invariant: `0 ≤ SP ≤ len(Stack.Data)`. -/
def stackInv {ι : Type} (vm : VM ι) : Prop :=
  0 ≤ vm.SP ∧ vm.SP ≤ vm.StackData.length

theorem push_ok_iff {ι : Type} {vm vm' : VM ι} {v : Option Pointer}
    (h : push vm v = Except.ok vm') :
    vm'.SP = vm.SP + 1 ∧
      ((vm.StackData.length : Int) ≤ vm.SP ∧
          vm' = { vm with StackData := vm.StackData ++ [v], SP := vm.SP + 1 } ∨
        0 ≤ vm.SP ∧ vm.SP < (vm.StackData.length : Int) ∧
          vm' = { vm with StackData := vm.StackData.set vm.SP.toNat v,
                          SP := vm.SP + 1 }) := by
  unfold push at h
  split_ifs at h with h1 h2
  · cases h
    exact ⟨rfl, Or.inl ⟨h1, rfl⟩⟩
  · cases h
    exact ⟨rfl, Or.inr ⟨h2, by omega, rfl⟩⟩

theorem pop_ok_iff {ι : Type} {vm vm' : VM ι} {r : Option Pointer}
    (h : pop vm = Except.ok (r, vm')) :
    1 ≤ vm.StackData.length ∧ 0 ≤ vm.SP - 1 ∧
      (vm.SP - 1).toNat < vm.StackData.length ∧
      vm.StackData[(vm.SP - 1).toNat]? = some r ∧
      vm' = { vm with StackData := vm.StackData.set (vm.SP - 1).toNat none,
                      SP := vm.SP - 1 } := by
  unfold pop at h
  by_cases h1 : vm.StackData.length < 1
  · rw [if_pos h1] at h
    cases h
  · rw [if_neg h1] at h
    by_cases hc : 0 ≤ vm.SP - 1 ∧ (vm.SP - 1).toNat < vm.StackData.length
    · rw [dif_pos hc] at h
      injection h with h2
      rw [Prod.mk.injEq] at h2
      obtain ⟨h3, h4⟩ := h2
      subst h4
      refine ⟨by omega, hc.1, hc.2, ?_, rfl⟩
      rw [List.getElem?_eq_getElem hc.2]
      exact congrArg some (by rw [← h3, List.get_eq_getElem])
    · rw [dif_neg hc] at h
      cases h

theorem push_inv {ι : Type} {vm vm' : VM ι} {v : Option Pointer}
    (hinv : stackInv vm) (h : push vm v = Except.ok vm') : stackInv vm' := by
  obtain ⟨hsp, hrest⟩ := push_ok_iff h
  rcases hrest with ⟨hle, rfl⟩ | ⟨h0, hlt, rfl⟩ <;>
    simp only [stackInv, List.length_append, List.length_set,
      List.length_cons, List.length_nil] at hinv ⊢ <;>
    omega

theorem pop_inv {ι : Type} {vm vm' : VM ι} {r : Option Pointer}
    (h : pop vm = Except.ok (r, vm')) : stackInv vm' := by
  obtain ⟨h1, h0, hlt, _, rfl⟩ := pop_ok_iff h
  simp only [stackInv, List.length_set]
  omega

theorem runOps_inv {ι : Type} :
    ∀ (ops : List StackOp) (vm vmF : VM ι), stackInv vm →
      runOps vm ops = Except.ok vmF → stackInv vmF := by
  intro ops
  induction ops with
  | nil =>
    intro vm vmF hinv h
    cases h
    exact hinv
  | cons op rest ih =>
    intro vm vmF hinv h
    cases op with
    | pushOp v =>
      simp only [runOps] at h
      split at h
      · cases h
      · next vm' heq => exact ih vm' vmF (push_inv hinv heq) h
    | popOp =>
      simp only [runOps] at h
      split at h
      · cases h
      · next r vm' heq =>
        exact ih vm' vmF (pop_inv heq) h

theorem runOps_append {ι : Type} :
    ∀ (a b : List StackOp) (vm vmF : VM ι),
      runOps vm (a ++ b) = Except.ok vmF →
      ∃ vmM, runOps vm a = Except.ok vmM ∧ runOps vmM b = Except.ok vmF := by
  intro a
  induction a with
  | nil =>
    intro b vm vmF h
    exact ⟨vm, rfl, h⟩
  | cons op rest ih =>
    intro b vm vmF h
    cases op with
    | pushOp v =>
      simp only [List.cons_append, runOps] at h ⊢
      split at h
      · cases h
      · next vm' heq => exact ih b vm' vmF h
    | popOp =>
      simp only [List.cons_append, runOps] at h ⊢
      split at h
      · cases h
      · next r vm' heq => exact ih b vm' vmF h

/-- C4: popping from an operand stack with `SP = 0` is a fatal fault — `pop`
never returns a value there (the source either hits the explicit
`"Nothing to pop!"` panic or the index panic at `Data[-1]`) — and whenever
`pop` does complete normally the resulting `SP` is still nonnegative. -/
theorem c4_pop_empty_is_fatal {ι : Type} :
    (∀ vm : VM ι, vm.SP = 0 → ∃ f, pop vm = Except.error f) ∧
    (∀ (vm vm' : VM ι) (r : Option Pointer),
      pop vm = Except.ok (r, vm') → 0 ≤ vm'.SP) := by
  constructor
  · intro vm hsp
    unfold pop
    split_ifs with h1
    · exact ⟨_, rfl⟩
    · rw [dif_neg (by omega)]
      exact ⟨_, rfl⟩
  · intro vm vm' r h
    obtain ⟨_, h0, _, _, rfl⟩ := pop_ok_iff h
    exact h0

theorem c4_witness :
    (New : VM Unit).SP = 0 ∧ ∃ f, pop (New : VM Unit) = Except.error f :=
  ⟨rfl, c4_pop_empty_is_fatal.1 New rfl⟩

/-- C5: from a fresh VM, every state reachable by successfully completed
pushes and pops satisfies `0 ≤ SP ≤ len(Stack.Data)` (so the invariant holds
after each operation of a successful run, each prefix being such a run), and
a successful push increments `SP` by exactly 1 while a successful pop
decrements it by exactly 1. -/
theorem c5_sp_invariant {ι : Type} :
    stackInv (New : VM ι) ∧
    (∀ (vm vm' : VM ι) (v : Option Pointer), stackInv vm →
      push vm v = Except.ok vm' → stackInv vm' ∧ vm'.SP = vm.SP + 1) ∧
    (∀ (vm vm' : VM ι) (r : Option Pointer), stackInv vm →
      pop vm = Except.ok (r, vm') → stackInv vm' ∧ vm'.SP = vm.SP - 1) ∧
    (∀ (ops : List StackOp) (vmF : VM ι),
      runOps New ops = Except.ok vmF → stackInv vmF) ∧
    (∀ (ops₁ ops₂ : List StackOp) (vmF : VM ι),
      runOps New (ops₁ ++ ops₂) = Except.ok vmF →
      ∃ vmM : VM ι, runOps New ops₁ = Except.ok vmM ∧ stackInv vmM) := by
  have hnew : stackInv (New : VM ι) := by
    constructor <;> simp [New]
  refine ⟨hnew, ?_, ?_, ?_, ?_⟩
  · intro vm vm' v hinv h
    exact ⟨push_inv hinv h, (push_ok_iff h).1⟩
  · intro vm vm' r hinv h
    obtain ⟨_, _, _, _, rfl⟩ := pop_ok_iff h
    exact ⟨pop_inv h, rfl⟩
  · intro ops vmF h
    exact runOps_inv ops New vmF hnew h
  · intro ops₁ ops₂ vmF h
    obtain ⟨vmM, h1, _⟩ := runOps_append ops₁ ops₂ New vmF h
    exact ⟨vmM, h1, runOps_inv ops₁ New vmM hnew h1⟩

def vmP1 : VM Unit := { New with StackData := [none], SP := 1 }

theorem c5_witness :
    stackInv (New : VM Unit) ∧
    push (New : VM Unit) none = Except.ok vmP1 ∧
    (stackInv vmP1 ∧ vmP1.SP = (New : VM Unit).SP + 1) ∧
    runOps (New : VM Unit) [StackOp.pushOp none, StackOp.popOp] =
      Except.ok { New with StackData := [none], SP := 0 } ∧
    stackInv { (New : VM Unit) with StackData := [none], SP := 0 } :=
  ⟨c5_sp_invariant.1, rfl,
   c5_sp_invariant.2.1 New vmP1 none c5_sp_invariant.1 rfl, rfl,
   c5_sp_invariant.2.2.2.1 [StackOp.pushOp none, StackOp.popOp] _ rfl⟩

theorem pop_eq_ok {ι : Type} {vm : VM ι} {r : Option Pointer}
    (h1 : ¬ vm.StackData.length < 1) (h0 : 0 ≤ vm.SP - 1)
    (hlt : (vm.SP - 1).toNat < vm.StackData.length)
    (hget : vm.StackData[(vm.SP - 1).toNat]? = some r) :
    pop vm = Except.ok (r,
      { vm with StackData := vm.StackData.set (vm.SP - 1).toNat none,
                SP := vm.SP - 1 }) := by
  unfold pop
  rw [if_neg h1, dif_pos ⟨h0, hlt⟩]
  have hg : vm.StackData.get ⟨(vm.SP - 1).toNat, hlt⟩ = r := by
    rw [List.get_eq_getElem]
    have h2 := List.getElem?_eq_getElem hlt
    rw [hget] at h2
    exact (Option.some.inj h2).symm
  rw [hg]

/-- C9: on any stack state satisfying `0 ≤ SP ≤ len(Data)`, `push v` followed
by `pop` succeeds, returns exactly `v`, restores `SP` to its pre-push value,
and leaves the vacated slot `Data[SP]` cleared to `nil`. -/
theorem c9_push_pop_roundtrip {ι : Type} (vm : VM ι) (hinv : stackInv vm)
    (v : Pointer) :
    ∃ vm₁ vm₂, push vm (some v) = Except.ok vm₁ ∧
      pop vm₁ = Except.ok (some v, vm₂) ∧
      vm₂.SP = vm.SP ∧
      vm₂.StackData[vm.SP.toNat]? = some none := by
  obtain ⟨h0, hle⟩ := hinv
  have hx : (vm.SP + 1 - 1 : Int) = vm.SP := by ring
  by_cases hfull : (vm.StackData.length : Int) ≤ vm.SP
  · have hnat : vm.SP.toNat = vm.StackData.length := by omega
    have hpush : push vm (some v) =
        Except.ok { vm with StackData := vm.StackData ++ [some v],
                            SP := vm.SP + 1 } := by
      unfold push
      rw [if_pos hfull]
    have hget : (vm.StackData ++ [some v])[(vm.SP + 1 - 1).toNat]? =
        some (some v) := by
      rw [hx, hnat, List.getElem?_eq_getElem (by simp)]
      exact congrArg some (List.getElem_concat_length _ _ _ rfl _)
    refine ⟨_, _, hpush,
      pop_eq_ok (by show ¬ (vm.StackData ++ [some v]).length < 1; simp)
        (by show (0 : Int) ≤ vm.SP + 1 - 1; omega) ?_ hget, ?_, ?_⟩
    · show (vm.SP + 1 - 1).toNat < (vm.StackData ++ [some v]).length
      simp only [hx, hnat, List.length_append, List.length_cons,
        List.length_nil]
      omega
    · exact hx
    · show ((vm.StackData ++ [some v]).set (vm.SP + 1 - 1).toNat
        none)[vm.SP.toNat]? = some none
      rw [hx, hnat]
      simp [List.getElem?_set]
  · push_neg at hfull
    have hlt : vm.SP.toNat < vm.StackData.length := by omega
    have hpush : push vm (some v) =
        Except.ok { vm with StackData := vm.StackData.set vm.SP.toNat (some v),
                            SP := vm.SP + 1 } := by
      unfold push
      rw [if_neg (by omega), if_pos h0]
    have hget : (vm.StackData.set vm.SP.toNat
        (some v))[(vm.SP + 1 - 1).toNat]? = some (some v) := by
      rw [hx]
      simp [List.getElem?_set, hlt]
    refine ⟨_, _, hpush,
      pop_eq_ok
        (by show ¬ (vm.StackData.set vm.SP.toNat (some v)).length < 1
            simp only [List.length_set]
            omega)
        (by show (0 : Int) ≤ vm.SP + 1 - 1; omega) ?_ hget, ?_, ?_⟩
    · show (vm.SP + 1 - 1).toNat < (vm.StackData.set vm.SP.toNat (some v)).length
      simp only [hx, List.length_set]
      omega
    · exact hx
    · show ((vm.StackData.set vm.SP.toNat (some v)).set (vm.SP + 1 - 1).toNat
        none)[vm.SP.toNat]? = some none
      rw [hx]
      simp [List.getElem?_set, hlt]

theorem c9_witness :
    stackInv (New : VM Unit) ∧
    ∃ vm₁ vm₂,
      push (New : VM Unit) (some { Target := Object.val 7 }) = Except.ok vm₁ ∧
      pop vm₁ = Except.ok (some { Target := Object.val 7 }, vm₂) ∧
      vm₂.SP = (New : VM Unit).SP ∧
      vm₂.StackData[(New : VM Unit).SP.toNat]? = some none :=
  ⟨⟨by simp [New], by simp [New]⟩,
   c9_push_pop_roundtrip New ⟨by simp [New], by simp [New]⟩
     { Target := Object.val 7 }⟩

/-- C10: `Stack.Top` yields the slot `Data[SP-1]` whenever `SP > 0` (and that
slot exists); when `SP = 0` it reports no error but returns the stale slot
`Data[0]` when the data slice is non-empty; and on a freshly created VM
(empty data slice) it is an index-out-of-range fault. -/
theorem c10_top_of_stack {ι : Type} :
    (∀ vm : VM ι, 0 < vm.SP → vm.SP ≤ vm.StackData.length →
      ∃ v, vm.StackData[(vm.SP - 1).toNat]? = some v ∧ Top vm = Except.ok v) ∧
    (∀ vm : VM ι, vm.SP = 0 → 0 < vm.StackData.length →
      ∃ v, vm.StackData[0]? = some v ∧ Top vm = Except.ok v) ∧
    Top (New : VM ι) = Except.error VMFault.indexOutOfRange := by
  refine ⟨?_, ?_, rfl⟩
  · intro vm hpos hle
    have hlt : (vm.SP - 1).toNat < vm.StackData.length := by omega
    refine ⟨vm.StackData[(vm.SP - 1).toNat], List.getElem?_eq_getElem hlt, ?_⟩
    unfold Top
    rw [if_pos hpos, List.getElem?_eq_getElem hlt]
  · intro vm hsp hlen
    refine ⟨vm.StackData[0], List.getElem?_eq_getElem hlen, ?_⟩
    unfold Top
    rw [if_neg (by omega), List.getElem?_eq_getElem hlen]

def vmT1 : VM Unit := { New with StackData := [some { Target := Object.val 3 }], SP := 1 }

def vmT0 : VM Unit := { New with StackData := [none], SP := 0 }

theorem c10_witness :
    (0 < vmT1.SP ∧ vmT1.SP ≤ vmT1.StackData.length ∧
      ∃ v, vmT1.StackData[(vmT1.SP - 1).toNat]? = some v ∧
        Top vmT1 = Except.ok v) ∧
    (vmT0.SP = 0 ∧ 0 < vmT0.StackData.length ∧
      ∃ v, vmT0.StackData[0]? = some v ∧ Top vmT0 = Except.ok v) ∧
    Top (New : VM Unit) = Except.error VMFault.indexOutOfRange :=
  ⟨⟨by decide, by decide,
      (c10_top_of_stack (ι := Unit)).1 vmT1 (by decide) (by decide)⟩,
   ⟨rfl, by decide,
      (c10_top_of_stack (ι := Unit)).2.1 vmT0 rfl (by decide)⟩,
   (c10_top_of_stack (ι := Unit)).2.2⟩

/-- The label prefixes of the spec's naming scheme and the kind each one
selects. -/
def prefixKinds : List (String × LabelType) :=
  [("Def", .LABEL_DEF), ("DefClass", .LABEL_DEFCLASS), ("Block", .BLOCK)]

theorem data_pfx (pfx n : String) :
    (pfx ++ ":" ++ n).data = pfx.data ++ ':' :: n.data := by
  rw [String.data_append, String.data_append]
  rw [show (":" : String).data = [':'] from rfl, List.append_assoc]
  rfl

theorem setLabel_prefixed {ι : Type} (vm : VM ι) (is : InstructionSet ι)
    (pfx n : String) (k : LabelType) (hpk : (pfx, k) ∈ prefixKinds)
    (hn : ':' ∉ n.data) :
    setLabel vm is (pfx ++ ":" ++ n) =
      some (tableAppendVM vm k n.data (labelledIS (pfx ++ ":" ++ n) k is),
            labelledIS (pfx ++ ":" ++ n) k is) := by
  have hd : (pfx ++ ":" ++ n).data = pfx.data ++ ':' :: n.data := data_pfx pfx n
  have hnotPS : (pfx ++ ":" ++ n) ≠ "ProgramStart" := by
    intro he
    have hmem : ':' ∈ ("ProgramStart" : String).data := by
      rw [← he, hd]
      exact List.mem_append_right _ (List.mem_cons_self _ _)
    revert hmem
    decide
  have hcases : ':' ∉ pfx.data ∧ labelTypes pfx.data = some k := by
    simp only [prefixKinds, List.mem_cons, List.not_mem_nil, or_false,
      Prod.mk.injEq] at hpk
    rcases hpk with ⟨rfl, rfl⟩ | ⟨rfl, rfl⟩ | ⟨rfl, rfl⟩ <;>
      exact ⟨by decide, by decide⟩
  obtain ⟨hpfx, hlt⟩ := hcases
  have hsplit : goSplit ':' (pfx ++ ":" ++ n).data = [pfx.data, n.data] := by
    rw [hd, goSplit_append _ _ _ hpfx, goSplit_of_not_mem _ _ hn]
  unfold setLabel
  rw [if_neg hnotPS, hsplit]
  simp [hlt]

/-- C7: `setLabel` stores `ProgramStart` under kind `PROGRAM` with key
`ProgramStart`, and a name `K:n` with `K ∈ {Def, DefClass, Block}` and `n`
colon-free under the kind for `K` with key `n` — in both cases setting
`is.Label` to the full name and kind and appending the set to that table
entry. -/
theorem c7_setLabel_kinds {ι : Type} :
    (∀ (vm : VM ι) (is : InstructionSet ι),
      setLabel vm is "ProgramStart" =
        some (tableAppendVM vm .PROGRAM "ProgramStart".data
                (labelledIS "ProgramStart" .PROGRAM is),
              labelledIS "ProgramStart" .PROGRAM is)) ∧
    (∀ (vm : VM ι) (is : InstructionSet ι) (pfx n : String) (k : LabelType),
      (pfx, k) ∈ prefixKinds → ':' ∉ n.data →
      setLabel vm is (pfx ++ ":" ++ n) =
        some (tableAppendVM vm k n.data (labelledIS (pfx ++ ":" ++ n) k is),
              labelledIS (pfx ++ ":" ++ n) k is)) := by
  constructor
  · intro vm is
    unfold setLabel
    rw [if_pos rfl]
  · intro vm is pfx n k hpk hn
    exact setLabel_prefixed vm is pfx n k hpk hn

theorem c7_witness :
    (("Def", LabelType.LABEL_DEF) ∈ prefixKinds ∧ ':' ∉ ("foo" : String).data) ∧
    setLabel (New : VM Unit) { Label := none, Instructions := [] }
        ("Def" ++ ":" ++ "foo") =
      some (tableAppendVM New .LABEL_DEF ("foo" : String).data
              (labelledIS ("Def" ++ ":" ++ "foo") .LABEL_DEF
                { Label := none, Instructions := [] }),
            labelledIS ("Def" ++ ":" ++ "foo") .LABEL_DEF
              { Label := none, Instructions := [] }) ∧
    setLabel (New : VM Unit) { Label := none, Instructions := [] }
        "ProgramStart" =
      some (tableAppendVM New .PROGRAM ("ProgramStart" : String).data
              (labelledIS "ProgramStart" .PROGRAM
                { Label := none, Instructions := [] }),
            labelledIS "ProgramStart" .PROGRAM
              { Label := none, Instructions := [] }) :=
  ⟨⟨by decide, by decide⟩,
   c7_setLabel_kinds.2 New { Label := none, Instructions := [] } "Def" "foo"
     .LABEL_DEF (by decide) (by decide),
   c7_setLabel_kinds.1 New { Label := none, Instructions := [] }⟩

/-- C6: after `New()`, the constants map binds the name of each of the eight
built-in classes (keyed by its `ReturnName`) to a pointer targeting that
class, and binds nothing else. -/
theorem c6_initial_constants {ι : Type} :
    (∀ c ∈ builtInClasses, (New : VM ι).Constants c.ReturnName =
      some { Target := Object.cls c }) ∧
    (∀ k : String, (∀ c ∈ builtInClasses, k ≠ c.ReturnName) →
      (New : VM ι).Constants k = none) := by
  constructor
  · intro c hc
    simp only [builtInClasses, List.mem_cons, List.not_mem_nil, or_false] at hc
    rcases hc with rfl | rfl | rfl | rfl | rfl | rfl | rfl | rfl <;> rfl
  · intro k hk
    have h1 := hk IntegerClass (by simp [builtInClasses])
    have h2 := hk StringClass (by simp [builtInClasses])
    have h3 := hk BooleanClass (by simp [builtInClasses])
    have h4 := hk NullClass (by simp [builtInClasses])
    have h5 := hk ArrayClass (by simp [builtInClasses])
    have h6 := hk HashClass (by simp [builtInClasses])
    have h7 := hk ClassClass (by simp [builtInClasses])
    have h8 := hk ObjectClass (by simp [builtInClasses])
    show initConstants k = none
    simp only [RClass.ReturnName, IntegerClass, StringClass, BooleanClass,
      NullClass, ArrayClass, HashClass, ClassClass, ObjectClass]
      at h1 h2 h3 h4 h5 h6 h7 h8
    simp only [initConstants, builtInClasses, List.foldl]
    simp [RClass.ReturnName, IntegerClass, StringClass, BooleanClass,
      NullClass, ArrayClass, HashClass, ClassClass, ObjectClass,
      h1, h2, h3, h4, h5, h6, h7, h8]

theorem c6_witness :
    (IntegerClass ∈ builtInClasses ∧
      (New : VM Unit).Constants IntegerClass.ReturnName =
        some { Target := Object.cls IntegerClass }) ∧
    ((∀ c ∈ builtInClasses, ("Foo" : String) ≠ c.ReturnName) ∧
      (New : VM Unit).Constants "Foo" = none) :=
  ⟨⟨by decide, c6_initial_constants.1 IntegerClass (by decide)⟩,
   ⟨by decide, c6_initial_constants.2 "Foo" (by decide)⟩⟩

theorem regMany_table {ι : Type} (name : String) (k : LabelType)
    (key : List Char)
    (hset : ∀ (vm : VM ι) (is : InstructionSet ι), setLabel vm is name =
      some (tableAppendVM vm k key (labelledIS name k is),
            labelledIS name k is)) :
    ∀ (iss : List (InstructionSet ι)) (vm : VM ι),
      ∃ vmF, regMany vm name iss = some vmF ∧
        vmF.LabelTable k key =
          vm.LabelTable k key ++ iss.map (labelledIS name k) ∧
        (∀ k' key', ¬(k' = k ∧ key' = key) →
          vmF.LabelTable k' key' = vm.LabelTable k' key') ∧
        vmF.MethodISTable = vm.MethodISTable ∧
        vmF.ClassISTable = vm.ClassISTable ∧
        vmF.BlockList = vm.BlockList := by
  intro iss
  induction iss with
  | nil =>
    intro vm
    exact ⟨vm, rfl, by simp, fun _ _ _ => rfl, rfl, rfl, rfl⟩
  | cons is rest ih =>
    intro vm
    obtain ⟨vmF, hrun, htab, hoth, hm, hc, hb⟩ :=
      ih (tableAppendVM vm k key (labelledIS name k is))
    refine ⟨vmF, ?_, ?_, ?_, hm, hc, hb⟩
    · simp only [regMany, hset vm is]
      exact hrun
    · rw [htab]
      show (if k = k ∧ key = key then vm.LabelTable k key ++ [labelledIS name k is]
            else vm.LabelTable k key) ++ _ = _
      rw [if_pos ⟨rfl, rfl⟩, List.map_cons, List.append_assoc]
      rfl
    · intro k' key' hne
      rw [hoth k' key' hne]
      show (if k' = k ∧ key' = key then _ else vm.LabelTable k' key') = _
      rw [if_neg hne]

/-- C8: `getBlock` ignores the index tables entirely: whenever the `BLOCK`
entry for a name is non-empty it returns its head — the first registered
set — no matter how long the entry is (and, being a pure lookup, no matter
how often it was called before); an empty entry (absent key) yields `none`.
After registering any non-empty list of sets under `Block:n` on a fresh VM,
`getBlock n` is therefore the first registered set. -/
theorem c8_getBlock_first {ι : Type} :
    (∀ (vm : VM ι) (name : String) (is : InstructionSet ι)
        (rest : List (InstructionSet ι)),
      vm.LabelTable .BLOCK name.data = is :: rest →
      getBlock vm name = some is) ∧
    (∀ (vm : VM ι) (name : String),
      vm.LabelTable .BLOCK name.data = [] → getBlock vm name = none) ∧
    (∀ (n : String), ':' ∉ n.data → ∀ (iss : List (InstructionSet ι)),
      ∃ vm₁ : VM ι, regMany New ("Block" ++ ":" ++ n) iss = some vm₁ ∧
        getBlock vm₁ n =
          (iss.map (labelledIS ("Block" ++ ":" ++ n) .BLOCK))[0]?) := by
  refine ⟨?_, ?_, ?_⟩
  · intro vm name is rest h
    unfold getBlock
    rw [h]
  · intro vm name h
    unfold getBlock
    rw [h]
  · intro n hn iss
    have hset := fun (vm : VM ι) (is : InstructionSet ι) =>
      setLabel_prefixed vm is "Block" n .BLOCK (by decide) hn
    obtain ⟨vm₁, hreg, htab, _, _, _, _⟩ :=
      regMany_table ("Block" ++ ":" ++ n) .BLOCK n.data hset iss New
    refine ⟨vm₁, hreg, ?_⟩
    have htab' : vm₁.LabelTable .BLOCK n.data =
        iss.map (labelledIS ("Block" ++ ":" ++ n) .BLOCK) := by
      rw [htab]
      rfl
    unfold getBlock
    rw [htab']
    cases iss <;> simp

theorem c8_witness :
    (':' ∉ ("1" : String).data) ∧
    ∃ vm₁ : VM Unit,
      regMany New ("Block" ++ ":" ++ "1")
          [{ Label := none, Instructions := [] },
           { Label := none, Instructions := [] }] = some vm₁ ∧
      getBlock vm₁ "1" =
        ([{ Label := none, Instructions := [] },
           { Label := none, Instructions := [] }].map
          (labelledIS ("Block" ++ ":" ++ "1") .BLOCK))[0]? :=
  ⟨by decide,
   c8_getBlock_first.2.2 "1" (by decide)
     [{ Label := none, Instructions := [] },
      { Label := none, Instructions := [] }]⟩

theorem getMethodCalls_ok {ι : Type} (n : String)
    (L : List (InstructionSet ι)) (hL : L ≠ []) :
    ∀ (j c : Nat) (vm : VM ι),
      vm.LabelTable .LABEL_DEF n.data = L →
      vm.MethodISTable.Data n.data = c →
      c + j ≤ L.length →
      ∃ vmF, getMethodCalls vm n j =
          Except.ok (((L.drop c).take j).map some, vmF) ∧
        vmF.MethodISTable.Data n.data = c + j ∧
        vmF.LabelTable = vm.LabelTable ∧
        (∀ key, key ≠ n.data →
          vmF.MethodISTable.Data key = vm.MethodISTable.Data key) := by
  intro j
  induction j with
  | zero =>
    intro c vm hT hC hle
    exact ⟨vm, by simp [getMethodCalls], by omega, rfl, fun _ _ => rfl⟩
  | succ j ih =>
    intro c vm hT hC hle
    have hc : c < L.length := by omega
    rcases hL2 : L with _ | ⟨a, as⟩
    · exact absurd hL2 hL
    · subst hL2
      have hmis : getMethodIS vm n =
          Except.ok (some ((a :: as).get ⟨c, hc⟩),
            { vm with MethodISTable := { Data := fun key =>
                if key = n.data then vm.MethodISTable.Data key + 1
                else vm.MethodISTable.Data key } }) := by
        unfold getMethodIS
        rw [hT]
        show (match (a :: as)[vm.MethodISTable.Data n.data]? with
              | none => Except.error VMFault.indexOutOfRange
              | some is => Except.ok (some is, _)) = _
        rw [hC, List.getElem?_eq_getElem hc]
        rfl
      obtain ⟨vmF, hcalls, hcur, hLT, hoth⟩ :=
        ih (c + 1)
          { vm with MethodISTable := { Data := fun key =>
              if key = n.data then vm.MethodISTable.Data key + 1
              else vm.MethodISTable.Data key } }
          hT (by simp [hC]) (by omega)
      refine ⟨vmF, ?_, by omega, hLT, ?_⟩
      · simp only [getMethodCalls, hmis, hcalls]
        rw [List.drop_eq_getElem_cons hc, List.take_succ_cons, List.map_cons]
        rfl
      · intro key hkey
        rw [hoth key hkey]
        simp [hkey]

theorem getClassCalls_ok {ι : Type} (n : String)
    (L : List (InstructionSet ι)) (hL : L ≠ []) :
    ∀ (j c : Nat) (vm : VM ι),
      vm.LabelTable .LABEL_DEFCLASS n.data = L →
      vm.ClassISTable.Data n.data = c →
      c + j ≤ L.length →
      ∃ vmF, getClassCalls vm n j =
          Except.ok (((L.drop c).take j).map some, vmF) ∧
        vmF.ClassISTable.Data n.data = c + j ∧
        vmF.LabelTable = vm.LabelTable ∧
        (∀ key, key ≠ n.data →
          vmF.ClassISTable.Data key = vm.ClassISTable.Data key) := by
  intro j
  induction j with
  | zero =>
    intro c vm hT hC hle
    exact ⟨vm, by simp [getClassCalls], by omega, rfl, fun _ _ => rfl⟩
  | succ j ih =>
    intro c vm hT hC hle
    have hc : c < L.length := by omega
    rcases hL2 : L with _ | ⟨a, as⟩
    · exact absurd hL2 hL
    · subst hL2
      have hmis : getClassIS vm n =
          Except.ok (some ((a :: as).get ⟨c, hc⟩),
            { vm with ClassISTable := { Data := fun key =>
                if key = n.data then vm.ClassISTable.Data key + 1
                else vm.ClassISTable.Data key } }) := by
        unfold getClassIS
        rw [hT]
        show (match (a :: as)[vm.ClassISTable.Data n.data]? with
              | none => Except.error VMFault.indexOutOfRange
              | some is => Except.ok (some is, _)) = _
        rw [hC, List.getElem?_eq_getElem hc]
        rfl
      obtain ⟨vmF, hcalls, hcur, hLT, hoth⟩ :=
        ih (c + 1)
          { vm with ClassISTable := { Data := fun key =>
              if key = n.data then vm.ClassISTable.Data key + 1
              else vm.ClassISTable.Data key } }
          hT (by simp [hC]) (by omega)
      refine ⟨vmF, ?_, by omega, hLT, ?_⟩
      · simp only [getClassCalls, hmis, hcalls]
        rw [List.drop_eq_getElem_cons hc, List.take_succ_cons, List.map_cons]
        rfl
      · intro key hkey
        rw [hoth key hkey]
        simp [hkey]

/-- C1: on a fresh VM, registering `is_1 … is_m` in order via `setLabel`
under `Def:n` (resp. `DefClass:n`), for colon-free `n`, appends them in
registration order to the `LABEL_DEF` (resp. `LABEL_DEFCLASS`) entry at key
`n`; the first `j ≤ m` calls of `getMethodIS(n)` (resp. `getClassIS(n)`)
then return precisely the first `j` registered sets, in registration order,
each call advancing that name's fetch cursor by exactly one (the cursor
reads `j` after `j` calls). -/
theorem c1_cursor_consumption {ι : Type} (n : String) (hn : ':' ∉ n.data)
    (iss : List (InstructionSet ι)) (hne : iss ≠ []) :
    (∃ vm₁ : VM ι, regMany New ("Def" ++ ":" ++ n) iss = some vm₁ ∧
      vm₁.LabelTable .LABEL_DEF n.data =
        iss.map (labelledIS ("Def" ++ ":" ++ n) .LABEL_DEF) ∧
      (∀ j ≤ iss.length, ∃ vmJ, getMethodCalls vm₁ n j =
          Except.ok
            (((iss.map (labelledIS ("Def" ++ ":" ++ n) .LABEL_DEF)).take j).map
              some, vmJ) ∧
        vmJ.MethodISTable.Data n.data = j)) ∧
    (∃ vm₁ : VM ι, regMany New ("DefClass" ++ ":" ++ n) iss = some vm₁ ∧
      vm₁.LabelTable .LABEL_DEFCLASS n.data =
        iss.map (labelledIS ("DefClass" ++ ":" ++ n) .LABEL_DEFCLASS) ∧
      (∀ j ≤ iss.length, ∃ vmJ, getClassCalls vm₁ n j =
          Except.ok
            (((iss.map
                (labelledIS ("DefClass" ++ ":" ++ n) .LABEL_DEFCLASS)).take
              j).map some, vmJ) ∧
        vmJ.ClassISTable.Data n.data = j)) := by
  constructor
  · have hset := fun (vm : VM ι) (is : InstructionSet ι) =>
      setLabel_prefixed vm is "Def" n .LABEL_DEF (by decide) hn
    obtain ⟨vm₁, hreg, htab, _, hm, _, _⟩ :=
      regMany_table ("Def" ++ ":" ++ n) .LABEL_DEF n.data hset iss New
    have htab' : vm₁.LabelTable .LABEL_DEF n.data =
        iss.map (labelledIS ("Def" ++ ":" ++ n) .LABEL_DEF) := by
      rw [htab]
      rfl
    refine ⟨vm₁, hreg, htab', ?_⟩
    intro j hj
    have hmap : iss.map (labelledIS ("Def" ++ ":" ++ n) .LABEL_DEF) ≠ [] := by
      intro h
      exact hne (List.map_eq_nil_iff.mp h)
    have hcur : vm₁.MethodISTable.Data n.data = 0 := by
      rw [hm]
      rfl
    obtain ⟨vmJ, hcalls, hcurJ, _, _⟩ :=
      getMethodCalls_ok n _ hmap j 0 vm₁ htab' hcur
        (by simp [List.length_map]; omega)
    refine ⟨vmJ, ?_, hcurJ.trans (Nat.zero_add j)⟩
    rw [hcalls, List.drop_zero]
  · have hset := fun (vm : VM ι) (is : InstructionSet ι) =>
      setLabel_prefixed vm is "DefClass" n .LABEL_DEFCLASS (by decide) hn
    obtain ⟨vm₁, hreg, htab, _, _, hc, _⟩ :=
      regMany_table ("DefClass" ++ ":" ++ n) .LABEL_DEFCLASS n.data hset iss New
    have htab' : vm₁.LabelTable .LABEL_DEFCLASS n.data =
        iss.map (labelledIS ("DefClass" ++ ":" ++ n) .LABEL_DEFCLASS) := by
      rw [htab]
      rfl
    refine ⟨vm₁, hreg, htab', ?_⟩
    intro j hj
    have hmap : iss.map (labelledIS ("DefClass" ++ ":" ++ n) .LABEL_DEFCLASS) ≠ [] := by
      intro h
      exact hne (List.map_eq_nil_iff.mp h)
    have hcur : vm₁.ClassISTable.Data n.data = 0 := by
      rw [hc]
      rfl
    obtain ⟨vmJ, hcalls, hcurJ, _, _⟩ :=
      getClassCalls_ok n _ hmap j 0 vm₁ htab' hcur
        (by simp [List.length_map]; omega)
    refine ⟨vmJ, ?_, hcurJ.trans (Nat.zero_add j)⟩
    rw [hcalls, List.drop_zero]

theorem c1_witness :
    (':' ∉ ("foo" : String).data ∧
      ([{ Label := none, Instructions := [] },
        { Label := none, Instructions := [] }] :
          List (InstructionSet Unit)) ≠ []) ∧
    (∃ vm₁ : VM Unit,
      regMany New ("Def" ++ ":" ++ "foo")
          [{ Label := none, Instructions := [] },
           { Label := none, Instructions := [] }] = some vm₁ ∧
      vm₁.LabelTable .LABEL_DEF ("foo" : String).data =
        [{ Label := none, Instructions := [] },
         { Label := none, Instructions := [] }].map
          (labelledIS ("Def" ++ ":" ++ "foo") .LABEL_DEF) ∧
      (∀ j ≤ ([{ Label := none, Instructions := [] },
               { Label := none, Instructions := [] }] :
                  List (InstructionSet Unit)).length,
        ∃ vmJ, getMethodCalls vm₁ "foo" j =
            Except.ok
              ((([{ Label := none, Instructions := [] },
                  { Label := none, Instructions := [] }].map
                  (labelledIS ("Def" ++ ":" ++ "foo") .LABEL_DEF)).take j).map
                some, vmJ) ∧
          vmJ.MethodISTable.Data ("foo" : String).data = j)) ∧
    (∃ vm₁ : VM Unit,
      regMany New ("DefClass" ++ ":" ++ "foo")
          [{ Label := none, Instructions := [] },
           { Label := none, Instructions := [] }] = some vm₁ ∧
      vm₁.LabelTable .LABEL_DEFCLASS ("foo" : String).data =
        [{ Label := none, Instructions := [] },
         { Label := none, Instructions := [] }].map
          (labelledIS ("DefClass" ++ ":" ++ "foo") .LABEL_DEFCLASS) ∧
      (∀ j ≤ ([{ Label := none, Instructions := [] },
               { Label := none, Instructions := [] }] :
                  List (InstructionSet Unit)).length,
        ∃ vmJ, getClassCalls vm₁ "foo" j =
            Except.ok
              ((([{ Label := none, Instructions := [] },
                  { Label := none, Instructions := [] }].map
                  (labelledIS ("DefClass" ++ ":" ++ "foo")
                    .LABEL_DEFCLASS)).take j).map some, vmJ) ∧
          vmJ.ClassISTable.Data ("foo" : String).data = j)) :=
  ⟨⟨by decide, by decide⟩,
   (c1_cursor_consumption "foo" (by decide)
      [{ Label := none, Instructions := [] },
       { Label := none, Instructions := [] }] (by decide)).1,
   (c1_cursor_consumption "foo" (by decide)
      [{ Label := none, Instructions := [] },
       { Label := none, Instructions := [] }] (by decide)).2⟩

theorem eval_ok {ι : Type} (act : ι → VM ι → CallFrame ι → VM ι × CallFrame ι)
    (hpc : ∀ i vm cf, (act i vm cf).2.PC = cf.PC)
    (his : ∀ i vm cf, (act i vm cf).2.InstructionSet = cf.InstructionSet) :
    ∀ (k : Nat) (vm : VM ι) (cf : CallFrame ι) (fuel : Nat),
      cf.InstructionSet.Instructions.length = cf.PC + k → k ≤ fuel →
      ∃ vmF cfF, EvalCallFrame act fuel vm cf =
          some (vmF, cfF, List.range' cf.PC k) ∧
        cfF.PC = cf.PC + k ∧ cfF.InstructionSet = cf.InstructionSet := by
  intro k
  induction k with
  | zero =>
    intro vm cf fuel hlen hf
    refine ⟨vm, cf, ?_, by omega, rfl⟩
    rw [EvalCallFrame, dif_neg (by omega)]
    rfl
  | succ k ih =>
    intro vm cf fuel hlen hf
    have hpcLt : cf.PC < cf.InstructionSet.Instructions.length := by omega
    obtain ⟨f, rfl⟩ : ∃ f, fuel = f + 1 := ⟨fuel - 1, by omega⟩
    set p := execInstruction act vm cf
      (cf.InstructionSet.Instructions.get ⟨cf.PC, hpcLt⟩) with hp
    have h1 : p.2.PC = cf.PC + 1 := hpc _ _ _
    have h2 : p.2.InstructionSet = cf.InstructionSet := his _ _ _
    have hlen2 : p.2.InstructionSet.Instructions.length = p.2.PC + k := by
      rw [h1, h2]
      omega
    obtain ⟨vmF, cfF, hEval, hPC, hIS⟩ := ih p.1 p.2 f hlen2 (by omega)
    rw [h1] at hEval hPC
    refine ⟨vmF, cfF, ?_, by omega, hIS.trans h2⟩
    rw [EvalCallFrame, dif_pos hpcLt]
    show (EvalCallFrame act f p.1 p.2).map
      (fun r => (r.1, r.2.1, cf.PC :: r.2.2)) = _
    rw [hEval]
    rfl

/-- C2: `EvalCallFrame` runs the instruction at the current PC while
`PC < len(Instructions)`, and `execInstruction` bumps the PC by exactly 1
before invoking the opcode's operation; hence, when no executed operation
modifies the frame's PC (or its instruction set), each remaining instruction
executes exactly once in increasing index order, and the loop returns exactly
when the PC reaches the instruction count. -/
theorem c2_program_order {ι : Type}
    (act : ι → VM ι → CallFrame ι → VM ι × CallFrame ι)
    (hpc : ∀ i vm cf, (act i vm cf).2.PC = cf.PC)
    (his : ∀ i vm cf, (act i vm cf).2.InstructionSet = cf.InstructionSet)
    (vm : VM ι) (cf : CallFrame ι) (fuel : Nat)
    (h0 : cf.PC ≤ cf.InstructionSet.Instructions.length)
    (hf : cf.InstructionSet.Instructions.length - cf.PC ≤ fuel) :
    (∀ (v : VM ι) (c : CallFrame ι) (i : ι),
      execInstruction act v c i = act i v { c with PC := c.PC + 1 }) ∧
    ∃ vmF cfF, EvalCallFrame act fuel vm cf =
        some (vmF, cfF,
          List.range' cf.PC (cf.InstructionSet.Instructions.length - cf.PC)) ∧
      cfF.PC = cf.InstructionSet.Instructions.length ∧
      cfF.InstructionSet = cf.InstructionSet := by
  refine ⟨fun _ _ _ => rfl, ?_⟩
  obtain ⟨vmF, cfF, h1, h2, h3⟩ :=
    eval_ok act hpc his (cf.InstructionSet.Instructions.length - cf.PC)
      vm cf fuel (by omega) hf
  exact ⟨vmF, cfF, h1, by omega, h3⟩

def cfW : CallFrame Unit :=
  { InstructionSet := { Label := none, Instructions := [(), (), ()] }, PC := 0 }

theorem c2_witness :
    (∀ (v : VM Unit) (c : CallFrame Unit) (i : Unit),
      execInstruction (fun _ v c => (v, c)) v c i =
        (fun (_ : Unit) v c => (v, c)) i v { c with PC := c.PC + 1 }) ∧
    ∃ vmF cfF,
      EvalCallFrame (fun (_ : Unit) v c => (v, c)) 3 New cfW =
        some (vmF, cfF,
          List.range' cfW.PC
            (cfW.InstructionSet.Instructions.length - cfW.PC)) ∧
      cfF.PC = cfW.InstructionSet.Instructions.length ∧
      cfF.InstructionSet = cfW.InstructionSet :=
  c2_program_order (fun _ v c => (v, c)) (fun _ _ _ => rfl) (fun _ _ _ => rfl)
    New cfW 3 (by decide) (by decide)

/-- C3 (amended): `Exec` does not push any call frame — it evaluates the
frame already on top of the call-frame stack, so the embedder must have
pushed the initial (`ProgramStart`) frame before calling `Exec`; whenever a
top frame exists, `Exec` enters the evaluator on exactly that frame. -/
theorem c3_exec_top_frame {ι : Type}
    (act : ι → VM ι → CallFrame ι → VM ι × CallFrame ι) (fuel : Nat)
    (vm : VM ι) (cf : CallFrame ι) (h : CallFrameStackTop vm = some cf) :
    Exec act fuel vm = EvalCallFrame act fuel vm cf := by
  unfold Exec
  rw [h]

/-- The `ProgramStart` instruction set of the C3 counterexample (one
instruction, so evaluating it is visibly not a no-op). -/
def psIS : InstructionSet Unit :=
  { Label := some { Name := "ProgramStart", Ltype := .PROGRAM },
    Instructions := [()] }

/-- A VM whose label table holds a `ProgramStart` instruction set but whose
call-frame stack is empty: no frame has been pushed. -/
def vmPS : VM Unit := tableAppendVM New .PROGRAM ("ProgramStart" : String).data psIS

/-- C3 counterexample: on a VM whose label table holds a `ProgramStart`
instruction set but whose call-frame stack is empty, `Exec` faults (there is
no top frame to fetch) instead of pushing a `ProgramStart` frame and
executing it — even though directly evaluating a `ProgramStart` frame on the
same VM succeeds.  So `Exec` does not begin execution at `ProgramStart`
unless the embedder pushed that frame beforehand. -/
theorem c3_counterexample :
    vmPS.LabelTable .PROGRAM ("ProgramStart" : String).data = [psIS] ∧
    vmPS.CallFrames = [] ∧
    Exec (fun (_ : Unit) v c => (v, c)) 1 vmPS = none ∧
    (EvalCallFrame (fun (_ : Unit) v c => (v, c)) 1 vmPS
      { InstructionSet := psIS, PC := 0 }).isSome = true := by
  refine ⟨by decide, rfl, ?_, ?_⟩
  · rfl
  · rfl

def cfPS : CallFrame Unit := { InstructionSet := psIS, PC := 0 }

def vmWithFrame : VM Unit := { New with CallFrames := [cfPS] }

theorem c3_witness :
    CallFrameStackTop vmWithFrame = some cfPS ∧
    Exec (fun (_ : Unit) v c => (v, c)) 1 vmWithFrame =
      EvalCallFrame (fun (_ : Unit) v c => (v, c)) 1 vmWithFrame cfPS :=
  ⟨rfl, c3_exec_top_frame _ 1 vmWithFrame cfPS rfl⟩

end Rooby
